import Mathlib

/-
  Verification development for the chutes repository.

  Shallow embedding of:
  - the base64 / hex codecs used by the transport layer and middleware
    (pybase64.b64encode / b64decode, bytes.fromhex, bytes.hex);
  - the transport codec of Cord._local_call_base / Cord._request_handler
    (src/chutes/chute/cord.py);
  - the constant-interval retry policy configured in Cord._local_call_base
    via the backoff decorator;
  - the endpoint path setter of Cord (src/chutes/chute/cord.py);
  - the AES-CBC / PKCS7 symmetric payload handling, the authentication
    gate, the key-exchange handler and the admission control of
    GraValMiddleware (src/chutes/entrypoint/run.py).

  Bytes are modelled as natural numbers below 256, byte strings as
  List Nat.  External cryptographic primitives (sr25519 verification,
  the graval enclave decrypt, the AES block permutation, sha256, gzip
  and pickle) are modelled as abstract function parameters; everything
  the repository implements itself is translated concretely.
-/

/-! # Base64 (pybase64.b64encode / b64decode, standard alphabet)

  Used by Cord._local_call_base and Cord._request_handler for the
  args / kwargs transport and by the symmetric payload framing in
  GraValMiddleware._dispatch.  Encoding maps 3 bytes to 4 alphabet
  characters, with = (ASCII 61) padding for trailing groups of 1 or 2
  bytes.  The decoder here is the strict mathematical inverse on the
  image of the encoder. -/

/-- ASCII code of the base64 alphabet character at index n (n < 64). -/
def b64Char (n : Nat) : Nat :=
  if n < 26 then 65 + n
  else if n < 52 then 97 + (n - 26)
  else if n < 62 then 48 + (n - 52)
  else if n = 62 then 43
  else 47

/-- Inverse alphabet lookup: ASCII code to sextet value. -/
def b64Val (c : Nat) : Option Nat :=
  if 65 ≤ c ∧ c ≤ 90 then some (c - 65)
  else if 97 ≤ c ∧ c ≤ 122 then some (c - 97 + 26)
  else if 48 ≤ c ∧ c ≤ 57 then some (c - 48 + 52)
  else if c = 43 then some 62
  else if c = 47 then some 63
  else none

/-- base64-encode a byte string (output is a list of ASCII codes). -/
def b64encode : List Nat → List Nat
  | [] => []
  | [a] => [b64Char (a / 4), b64Char (a % 4 * 16), 61, 61]
  | [a, b] => [b64Char (a / 4), b64Char (a % 4 * 16 + b / 16), b64Char (b % 16 * 4), 61]
  | a :: b :: c :: rest =>
      b64Char (a / 4) :: b64Char (a % 4 * 16 + b / 16) ::
      (b64Char (b % 16 * 4 + c / 64) :: (b64Char (c % 64) :: b64encode rest))

/-- base64-decode a list of ASCII codes; none on malformed input. -/
def b64decode : List Nat → Option (List Nat)
  | [] => some []
  | w :: x :: y :: z :: rest =>
    match b64Val w, b64Val x with
    | some vw, some vx =>
      if y = 61 then
        if z = 61 ∧ rest = [] then some [vw * 4 + vx / 16] else none
      else
        match b64Val y with
        | some vy =>
          if z = 61 then
            if rest = [] then some [vw * 4 + vx / 16, vx % 16 * 16 + vy / 4] else none
          else
            match b64Val z with
            | some vz =>
              (b64decode rest).map
                (fun t => (vw * 4 + vx / 16) :: (vx % 16 * 16 + vy / 4) :: (vy % 4 * 64 + vz) :: t)
            | none => none
        | none => none
    | _, _ => none
  | _ => none

lemma b64Val_b64Char : ∀ n < 64, b64Val (b64Char n) = some n := by decide

lemma b64Char_ne_61 : ∀ n < 64, b64Char n ≠ 61 := by decide

/-- Round trip of the base64 codec on byte strings. -/
theorem b64decode_b64encode (bs : List Nat) (h : ∀ x ∈ bs, x < 256) :
    b64decode (b64encode bs) = some bs := by
  induction bs using b64encode.induct with
  | case1 => rfl
  | case2 a =>
    have ha : a < 256 := h a (by simp)
    have h1 : a / 4 < 64 := by omega
    have h2 : a % 4 * 16 < 64 := by omega
    simp only [b64encode, b64decode, b64Val_b64Char _ h1, b64Val_b64Char _ h2,
      and_self, if_true, if_pos rfl, Option.some.injEq, List.cons.injEq, and_true]
    omega
  | case3 a b =>
    have ha : a < 256 := h a (by simp)
    have hb : b < 256 := h b (by simp)
    have h1 : a / 4 < 64 := by omega
    have h2 : a % 4 * 16 + b / 16 < 64 := by omega
    have h3 : b % 16 * 4 < 64 := by omega
    have n3 : b64Char (b % 16 * 4) ≠ 61 := b64Char_ne_61 _ h3
    simp only [b64encode, b64decode, b64Val_b64Char _ h1, b64Val_b64Char _ h2,
      b64Val_b64Char _ h3, n3, if_false, ite_false, if_pos rfl,
      Option.some.injEq, List.cons.injEq, and_true, if_true]
    omega
  | case4 a b c rest ih =>
    have ha : a < 256 := h a (by simp)
    have hb : b < 256 := h b (by simp)
    have hc : c < 256 := h c (by simp)
    have hrest : ∀ x ∈ rest, x < 256 := by
      intro x hx
      exact h x (by simp [hx])
    have h1 : a / 4 < 64 := by omega
    have h2 : a % 4 * 16 + b / 16 < 64 := by omega
    have h3 : b % 16 * 4 + c / 64 < 64 := by omega
    have h4 : c % 64 < 64 := by omega
    have n3 : b64Char (b % 16 * 4 + c / 64) ≠ 61 := b64Char_ne_61 _ h3
    have n4 : b64Char (c % 64) ≠ 61 := b64Char_ne_61 _ h4
    simp only [b64encode, b64decode, b64Val_b64Char _ h1, b64Val_b64Char _ h2,
      b64Val_b64Char _ h3, b64Val_b64Char _ h4, n3, n4, if_false, ite_false,
      ih hrest, Option.map_some', Option.some.injEq, List.cons.injEq, and_true, if_true]
    omega

/-! # Hex codec (bytes.hex / bytes.fromhex)

  Used by GraValMiddleware._dispatch: the IV of a symmetric payload is
  transmitted as 32 ASCII hex characters and parsed with bytes.fromhex,
  and the exchanged symmetric key arrives as a hex string.  hexDecode
  is strict (pairs of hex digits, upper or lower case). -/

/-- ASCII code of the lowercase hex digit for n < 16. -/
def hexDigit (n : Nat) : Nat :=
  if n < 10 then 48 + n else 97 + (n - 10)

/-- Hex digit value of an ASCII code (accepts 0-9, a-f, A-F). -/
def hexVal (c : Nat) : Option Nat :=
  if 48 ≤ c ∧ c ≤ 57 then some (c - 48)
  else if 97 ≤ c ∧ c ≤ 102 then some (c - 97 + 10)
  else if 65 ≤ c ∧ c ≤ 70 then some (c - 65 + 10)
  else none

/-- Encode a byte string as lowercase ASCII hex (two chars per byte). -/
def hexEncode : List Nat → List Nat
  | [] => []
  | b :: rest => hexDigit (b / 16) :: (hexDigit (b % 16) :: hexEncode rest)

/-- Decode ASCII hex to bytes; none on odd length or non-hex chars. -/
def hexDecode : List Nat → Option (List Nat)
  | [] => some []
  | [_] => none
  | hi :: lo :: rest =>
    match hexVal hi, hexVal lo with
    | some vh, some vl => (hexDecode rest).map (fun t => (vh * 16 + vl) :: t)
    | _, _ => none

lemma hexVal_hexDigit : ∀ n < 16, hexVal (hexDigit n) = some n := by decide

/-- Round trip of the hex codec on byte strings. -/
theorem hexDecode_hexEncode (bs : List Nat) (h : ∀ x ∈ bs, x < 256) :
    hexDecode (hexEncode bs) = some bs := by
  induction bs with
  | nil => rfl
  | cons b rest ih =>
    have hb : b < 256 := h b (by simp)
    have hrest : ∀ x ∈ rest, x < 256 := fun x hx => h x (by simp [hx])
    have h1 : b / 16 < 16 := by omega
    have h2 : b % 16 < 16 := by omega
    simp only [hexEncode, hexDecode, hexVal_hexDigit _ h1, hexVal_hexDigit _ h2,
      ih hrest, Option.map_some', Option.some.injEq, List.cons.injEq, and_true]
    omega

lemma hexEncode_length (bs : List Nat) : (hexEncode bs).length = 2 * bs.length := by
  induction bs with
  | nil => rfl
  | cons b rest ih => simp [hexEncode, ih]; omega

/-! # TransportCodec (Cord._local_call_base / Cord._request_handler)

  Claim C5.  The source encodes each of args and kwargs as
  base64(gzip.compress(pickle.dumps(v))) and decodes with
  pickle.loads(gzip.decompress(base64.b64decode(s))).  gzip and pickle
  are external libraries; they are modelled as abstract codec functions
  with left-inverse hypotheses, while base64 is the concrete codec
  proved above. -/

/-- Abstract model of the gzip byte compressor (external library). -/
structure ByteCodec where
  compress : List Nat → List Nat
  decompress : List Nat → List Nat

/-- Abstract model of the pickle serializer for values of type a
  (external library). -/
structure Pickler (a : Type) where
  dumps : a → List Nat
  loads : List Nat → Option a

/-- serialize, then compress, then base64-encode
  (Cord._local_call_base request_payload construction). -/
def transportEncode {a : Type} (c : ByteCodec) (p : Pickler a) (v : a) : List Nat :=
  b64encode (c.compress (p.dumps v))

/-- base64-decode, then decompress, then deserialize
  (Cord._request_handler argument decoding). -/
def transportDecode {a : Type} (c : ByteCodec) (p : Pickler a) (s : List Nat) : Option a :=
  (b64decode s).bind (fun bs => p.loads (c.decompress bs))

/-- Wire envelope of a single invocation: independently encoded
  positional and named arguments. -/
structure CallEnvelope where
  args : List Nat
  kwargs : List Nat

/-- Envelope construction in Cord._local_call_base. -/
def buildEnvelope {a b : Type} (c : ByteCodec) (pa : Pickler a) (pk : Pickler b)
    (args : a) (kwargs : b) : CallEnvelope :=
  { args := transportEncode c pa args, kwargs := transportEncode c pk kwargs }

/-- Envelope decoding in Cord._request_handler. -/
def decodeEnvelope {a b : Type} (c : ByteCodec) (pa : Pickler a) (pk : Pickler b)
    (e : CallEnvelope) : Option a × Option b :=
  (transportDecode c pa e.args, transportDecode c pk e.kwargs)

/-- C5: TransportCodec round-trip.  For every argument pair carried in a
  CallEnvelope, decoding the encoded form (base64-decode, then
  decompress, then deserialize) of the encoded envelope (serialize,
  then compress, then base64-encode) yields the original args and
  kwargs, provided the external gzip and pickle codecs invert each
  other (their documented contract) and compression emits bytes. -/
theorem transport_roundtrip {a b : Type} (c : ByteCodec) (pa : Pickler a) (pk : Pickler b)
    (hc : ∀ bs, c.decompress (c.compress bs) = bs)
    (hpa : ∀ v, pa.loads (pa.dumps v) = some v)
    (hpk : ∀ v, pk.loads (pk.dumps v) = some v)
    (hba : ∀ v x, x ∈ c.compress (pa.dumps v) → x < 256)
    (hbk : ∀ v x, x ∈ c.compress (pk.dumps v) → x < 256)
    (args : a) (kwargs : b) :
    decodeEnvelope c pa pk (buildEnvelope c pa pk args kwargs) = (some args, some kwargs) := by
  unfold decodeEnvelope buildEnvelope transportEncode transportDecode
  rw [b64decode_b64encode _ (hba args), b64decode_b64encode _ (hbk kwargs)]
  simp [hc, hpa, hpk]

/-- Concrete instances for the transport round-trip witness: identity
  compression and a one-byte Bool pickler. -/
def idCodec : ByteCodec := { compress := fun bs => bs, decompress := fun bs => bs }

def boolPickler : Pickler Bool :=
  { dumps := fun v => [if v then 1 else 0]
    loads := fun bs => if bs = [1] then some true else if bs = [0] then some false else none }

/-- Witness for C5 at a concrete envelope. -/
theorem transport_roundtrip_witness :
    decodeEnvelope idCodec boolPickler boolPickler
      (buildEnvelope idCodec boolPickler boolPickler true false) = (some true, some false) :=
  transport_roundtrip idCodec boolPickler boolPickler (fun _ => rfl)
    (fun v => by cases v <;> rfl) (fun v => by cases v <;> rfl)
    (fun v x hx => by cases v <;> simp [boolPickler, idCodec] at hx <;> omega)
    (fun v x hx => by cases v <;> simp [boolPickler, idCodec] at hx <;> omega)
    true false

/-! # RetryPolicy (Cord._local_call_base, backoff decorator)

  Claim C4.  The source wraps the network call with
  backoff.on_exception(backoff.constant, (StillProvisioning,),
  jitter=None, interval=1, max_time=self._provision_timeout).
  The backoff library retries only the listed StillProvisioning
  failure; any other failure propagates immediately.  On a failing
  attempt it gives up (re-raising the provisioning failure, the
  ProvisioningTimeout outcome of the spec) when the elapsed time at
  the start of the attempt has reached max_time; otherwise it sleeps
  min(interval, max_time - elapsed) and retries.  Attempts are
  modelled as instantaneous, elapsed time in whole seconds.
  The chutes.exception module itself is not part of the provided
  sources; the distinguished timeout outcome is modelled from the
  spec as the RetryResult.timeout variant. -/

/-- Outcome of one attempt of the wrapped operation. -/
inductive AttemptOutcome where
  | ok
  | provisioning
  | fatal
deriving DecidableEq

/-- Result of running the retry loop: in every variant the first
  argument is the number of attempts made and the second the elapsed
  whole seconds when the loop finished. -/
inductive RetryResult where
  | success (attempts : Nat) (elapsed : Nat)
  | timeout (attempts : Nat) (elapsed : Nat)
  | fatal (attempts : Nat) (elapsed : Nat)
deriving DecidableEq

/-- One iteration of the backoff retry loop: fuel-based recursion
  (fuel maxTime + 1 always suffices for interval 1), k attempts made
  so far, t seconds elapsed. -/
def retryGo (op : Nat → AttemptOutcome) (interval maxTime : Nat) :
    Nat → Nat → Nat → RetryResult
  | 0, k, t => .timeout k t
  | fuel + 1, k, t =>
    match op k with
    | .ok => .success (k + 1) t
    | .fatal => .fatal (k + 1) t
    | .provisioning =>
      if maxTime ≤ t then .timeout (k + 1) t
      else retryGo op interval maxTime fuel (k + 1) (t + min interval (maxTime - t))

/-- The configured retry loop of Cord._local_call_base. -/
def backoffRetry (op : Nat → AttemptOutcome) (interval maxTime : Nat) : RetryResult :=
  retryGo op interval maxTime (maxTime + 1) 0 0

lemma retryGo_always_provisioning (maxTime : Nat) :
    ∀ fuel t k, t ≤ maxTime → maxTime - t < fuel →
      retryGo (fun _ => .provisioning) 1 maxTime fuel k t =
        .timeout (k + (maxTime - t) + 1) maxTime := by
  intro fuel
  induction fuel with
  | zero => omega
  | succ n ih =>
    intro t k ht hf
    by_cases hm : maxTime ≤ t
    · have : t = maxTime := by omega
      subst this
      simp [retryGo]
    · have hlt : t < maxTime := by omega
      have hmin : min 1 (maxTime - t) = 1 := by omega
      rw [retryGo]
      simp only [hm, if_false, ite_false, hmin]
      rw [ih (t + 1) (k + 1) (by omega) (by omega)]
      congr 1
      omega

/-- C4: RetryPolicy contract.  With the configured fixed 1-second
  interval and no jitter, an operation that always fails with
  StillProvisioning ends in the provisioning-timeout outcome after
  elapsed e seconds with provisionTimeout ≤ e ≤ provisionTimeout + 1
  (in fact exactly provisionTimeout), having made e + 1 unit-spaced
  attempts; an operation whose first attempt fails with any other
  error propagates it immediately, after one attempt and zero
  elapsed time, with no retry. -/
theorem cord_retry_policy :
    (∀ provisionTimeout : Nat, ∃ e : Nat,
        backoffRetry (fun _ => .provisioning) 1 provisionTimeout = .timeout (e + 1) e ∧
        provisionTimeout ≤ e ∧ e ≤ provisionTimeout + 1) ∧
    (∀ (provisionTimeout : Nat) (op : Nat → AttemptOutcome),
        op 0 = .fatal → backoffRetry op 1 provisionTimeout = .fatal 1 0) := by
  constructor
  · intro T
    refine ⟨T, ?_, le_refl T, by omega⟩
    unfold backoffRetry
    rw [retryGo_always_provisioning T (T + 1) 0 0 (by omega) (by omega)]
    congr 1
    omega
  · intro T op h
    unfold backoffRetry
    rw [retryGo]
    simp [h]

/-- Witness for C4: the retry loop at concrete inputs, via the theorem. -/
theorem cord_retry_policy_witness :
    (∃ e : Nat, backoffRetry (fun _ => .provisioning) 1 3 = .timeout (e + 1) e ∧
      3 ≤ e ∧ e ≤ 4) ∧
    backoffRetry (fun _ => .fatal) 1 5 = .fatal 1 0 :=
  ⟨cord_retry_policy.1 3, cord_retry_policy.2 5 (fun _ => .fatal) rfl⟩

/-! # Endpoint path registration (Cord.path setter, cord.py)

  Claim C6.  The setter normalizes the path with
  path = "/" + path.lstrip("/").rstrip("/"), then rejects it with
  InvalidPath when "//" occurs in the result or the regex
  PATH_RE = ^(/[a-z0-9]+[a-z0-9-_]*)+$ does not match, and with
  DuplicatePath when another cord of the same app already has the
  same normalized path.  Paths are modelled as lists of characters.
  Since a segment cannot contain a slash, the regex matches exactly
  the strings that start with a slash and whose slash-separated
  pieces each start with a lowercase letter or digit followed by
  lowercase letters, digits, hyphens or underscores. -/

/-- Characters allowed after the first character of a segment
  (regex class [a-z0-9-_]). -/
def segChar (c : Char) : Bool :=
  (97 ≤ c.toNat && c.toNat ≤ 122) || (48 ≤ c.toNat && c.toNat ≤ 57) || c = '-' || c = '_'

/-- Characters allowed as the first character of a segment
  (regex class [a-z0-9]). -/
def segHeadChar (c : Char) : Bool :=
  (97 ≤ c.toNat && c.toNat ≤ 122) || (48 ≤ c.toNat && c.toNat ≤ 57)

/-- Split a character list on slashes (like str.split("/")). -/
def splitSlash : List Char → List (List Char)
  | [] => [[]]
  | c :: t =>
    if c = '/' then [] :: splitSlash t
    else
      match splitSlash t with
      | s :: ss => (c :: s) :: ss
      | [] => [[c]]

/-- A segment accepted by PATH_RE: [a-z0-9]+[a-z0-9-_]*. -/
def codeSegOk (s : List Char) : Bool :=
  match s with
  | [] => false
  | c :: _ => segHeadChar c && s.all segChar

/-- PATH_RE = ^(/[a-z0-9]+[a-z0-9-_]*)+$ on a character list. -/
def pathReMatch : List Char → Bool
  | [] => false
  | c :: rest => c = '/' && (splitSlash rest).all codeSegOk

/-- str.lstrip("/"). -/
def lstripSlash : List Char → List Char
  | [] => []
  | c :: t => if c = '/' then lstripSlash t else c :: t

/-- "/" + p.lstrip("/").rstrip("/") as in the setter. -/
def normalizePath (p : List Char) : List Char :=
  '/' :: ((lstripSlash p).reverse |> lstripSlash).reverse

/-- "//" in path. -/
def hasDoubleSlash : List Char → Bool
  | [] => false
  | [_] => false
  | a :: b :: t => (a = '/' && b = '/') || hasDoubleSlash (b :: t)

inductive PathError where
  | invalid
  | duplicate
deriving DecidableEq

/-- The Cord.path setter: normalization, InvalidPath check, and the
  DuplicatePath check against the normalized paths already registered
  on the same app. -/
def setPath (registered : List (List Char)) (p : List Char) : Except PathError (List Char) :=
  let np := normalizePath p
  if hasDoubleSlash np || !pathReMatch np then .error .invalid
  else if np ∈ registered then .error .duplicate
  else .ok np

/-- The grammar as the claim states it: slash-separated segments of
  ASCII lowercase, digits, hyphen, underscore, with no empty segments
  (and hence no doubled slashes). -/
def claimGrammar : List Char → Bool
  | [] => false
  | c :: rest => c = '/' && (splitSlash rest).all (fun s => !s.isEmpty && s.all segChar)

lemma splitSlash_ne_nil (l : List Char) : splitSlash l ≠ [] := by
  cases l with
  | nil => simp [splitSlash]
  | cons c t =>
    simp only [splitSlash]
    split
    · simp
    · cases h : splitSlash t <;> simp

lemma hasDoubleSlash_of_split (l : List Char)
    (h : ∀ x ∈ (splitSlash l).tail, x ≠ []) : hasDoubleSlash l = false := by
  induction l with
  | nil => rfl
  | cons c t ih =>
    by_cases hc : c = '/'
    · subst hc
      have htail : (splitSlash ('/' :: t)).tail = splitSlash t := by
        simp [splitSlash]
      rw [htail] at h
      cases t with
      | nil => rfl
      | cons d t2 =>
        by_cases hd : d = '/'
        · subst hd
          exfalso
          have : ([] : List Char) ∈ splitSlash ('/' :: t2) := by
            simp [splitSlash]
          exact h [] this rfl
        · have hstep : hasDoubleSlash ('/' :: d :: t2) = hasDoubleSlash (d :: t2) := by
            simp [hasDoubleSlash, hd]
          rw [hstep]
          refine ih ?_
          intro x hx
          exact h x (List.mem_of_mem_tail hx)
    · rcases h2 : splitSlash t with _ | ⟨s2, ss2⟩
      · exact absurd h2 (splitSlash_ne_nil _)
      · have htail : (splitSlash (c :: t)).tail = ss2 := by
          simp [splitSlash, hc, h2]
        rw [htail] at h
        cases t with
        | nil => rfl
        | cons d t2 =>
          have hstep : hasDoubleSlash (c :: d :: t2) = hasDoubleSlash (d :: t2) := by
            simp [hasDoubleSlash, hc]
          rw [hstep]
          refine ih ?_
          intro x hx
          rw [h2] at hx
          exact h x hx

lemma hasDoubleSlash_of_match (l : List Char) (hm : pathReMatch l = true) :
    hasDoubleSlash l = false := by
  cases l with
  | nil => rfl
  | cons c rest =>
    simp only [pathReMatch, Bool.and_eq_true, decide_eq_true_eq, List.all_eq_true] at hm
    obtain ⟨rfl, hall⟩ := hm
    refine hasDoubleSlash_of_split _ ?_
    intro x hx hxe
    subst hxe
    have : ([] : List Char) ∈ splitSlash rest := by
      have : (splitSlash ('/' :: rest)).tail = splitSlash rest := by
        simp [splitSlash]
      rw [← this]
      exact hx
    have := hall [] this
    simp [codeSegOk] at this

/-- C6 (amended): the setter succeeds exactly when the normalized path
  matches PATH_RE (slash-separated segments, each beginning with a
  lowercase letter or digit, followed by lowercase letters, digits,
  hyphens or underscores; this excludes empty segments and doubled
  slashes) and is not already registered; a normalized path that fails
  the grammar raises InvalidPath, and a grammatical duplicate of an
  already-registered path raises DuplicatePath. -/
theorem cord_path_validation (registered : List (List Char)) (p : List Char) :
    ((setPath registered p).toOption.isSome = true ↔
      (pathReMatch (normalizePath p) = true ∧ normalizePath p ∉ registered)) ∧
    (setPath registered p = .error .invalid ↔ pathReMatch (normalizePath p) = false) ∧
    (setPath registered p = .error .duplicate ↔
      (pathReMatch (normalizePath p) = true ∧ normalizePath p ∈ registered)) := by
  by_cases hm : pathReMatch (normalizePath p) = true
  · have hDS := hasDoubleSlash_of_match _ hm
    by_cases hmem : normalizePath p ∈ registered
    · simp [setPath, hDS, hm, hmem, Except.toOption]
    · simp [setPath, hDS, hm, hmem, Except.toOption]
  · have hm' : pathReMatch (normalizePath p) = false := by
      cases h : pathReMatch (normalizePath p)
      · rfl
      · exact absurd h hm
    simp [setPath, hm', Except.toOption]

/-- C6 counterexample: the claim states success iff the normalized path
  consists of nonempty segments over [a-z0-9-_]; the path "_a"
  satisfies that grammar but the setter raises InvalidPath, because
  PATH_RE additionally requires every segment to start with [a-z0-9]. -/
theorem cord_path_claim_cex :
    ¬ (((setPath [] ['_', 'a']).toOption.isSome = true) ↔
        claimGrammar (normalizePath ['_', 'a']) = true) := by decide

/-! # AES-CBC with PKCS7 padding (GraValMiddleware._dispatch, lines 244-274)

  Claim C8.  After key exchange, a mutating request body is framed as
  32 ASCII hex characters of IV followed by base64 ciphertext.  The
  middleware decrypts with AES-CBC under the stored symmetric key and
  the supplied IV and removes PKCS7 padding; the _encrypt closure
  stored on request.state applies PKCS7 padding, AES-CBC encryption
  under the same key and IV, and base64-encodes the result.  The AES
  block permutation itself is external (the cryptography library); it
  is modelled as an abstract pair of 16-byte block maps.  CBC chaining,
  PKCS7 padding and the framing are translated concretely. -/

/-- Pointwise xor of two byte strings (CBC chaining step). -/
def xorBytes (a b : List Nat) : List Nat := List.zipWith Nat.xor a b

/-- CBC-mode encryption of a block sequence. -/
def cbcEnc (enc : List Nat → List Nat) (iv : List Nat) : List (List Nat) → List (List Nat)
  | [] => []
  | b :: rest =>
    let c := enc (xorBytes iv b)
    c :: cbcEnc enc c rest

/-- CBC-mode decryption of a block sequence. -/
def cbcDec (dec : List Nat → List Nat) (iv : List Nat) : List (List Nat) → List (List Nat)
  | [] => []
  | c :: rest => xorBytes iv (dec c) :: cbcDec dec c rest

/-- Split a byte string into 16-byte blocks. -/
def chunk16 (l : List Nat) : List (List Nat) :=
  if h : l = [] then []
  else l.take 16 :: chunk16 (l.drop 16)
termination_by l.length
decreasing_by
  cases l with
  | nil => exact absurd rfl h
  | cons a t => simp [List.length_drop]; omega

/-- Concatenate a block sequence back into a byte string. -/
def concatBlocks : List (List Nat) → List Nat
  | [] => []
  | b :: rest => b ++ concatBlocks rest

/-- PKCS7 padding to the 128-bit block size (padding.PKCS7(128).padder). -/
def pkcs7Pad (pt : List Nat) : List Nat :=
  let padLen := 16 - pt.length % 16
  pt ++ List.replicate padLen padLen

/-- PKCS7 unpadding (padding.PKCS7(128).unpadder): requires nonempty
  input of block-multiple length whose last byte k (1..16) closes a
  run of k copies of k. -/
def pkcs7Unpad (d : List Nat) : Option (List Nat) :=
  match d.getLast? with
  | none => none
  | some k =>
    if 1 ≤ k ∧ k ≤ 16 ∧ d.length % 16 = 0 ∧
        (d.drop (d.length - k)).all (fun x => x = k) then
      some (d.take (d.length - k))
    else none

/-- The decryption performed by the middleware on a framed body:
  bytes.fromhex of the first 32 chars as IV, base64-decode of the
  rest, AES-CBC decryption, PKCS7 unpadding.  Failure of any step is
  an exception in the source, modelled as none. -/
def mwDecryptBody (dec : List Nat → List Nat) (body : List Nat) : Option (List Nat) :=
  match hexDecode (body.take 32), b64decode (body.drop 32) with
  | some iv, some ct => pkcs7Unpad (concatBlocks (cbcDec dec iv (chunk16 ct)))
  | _, _ => none

/-- The _encrypt closure exposed to the handler: PKCS7 padding,
  AES-CBC encryption with the same key and IV, base64 encoding. -/
def mwEncryptClosure (enc : List Nat → List Nat) (iv : List Nat) (pt : List Nat) : List Nat :=
  b64encode (concatBlocks (cbcEnc enc iv (chunk16 (pkcs7Pad pt))))

lemma pkcs7Unpad_pkcs7Pad (pt : List Nat) : pkcs7Unpad (pkcs7Pad pt) = some pt := by
  obtain ⟨n, hn⟩ : ∃ n, 16 - pt.length % 16 = n := ⟨_, rfl⟩
  have hn1 : 1 ≤ n := by omega
  have hn16 : n ≤ 16 := by omega
  have hP : pkcs7Pad pt = pt ++ List.replicate n n := by
    unfold pkcs7Pad
    rw [hn]
  have hlast : (pt ++ List.replicate n n).getLast? = some n := by
    rw [List.getLast?_append_of_ne_nil, List.getLast?_replicate]
    · simp only [if_neg (by omega : ¬ n = 0)]
    · simp only [ne_eq, List.replicate_eq_nil_iff]
      omega
  have hlen : (pt ++ List.replicate n n).length = pt.length + n := by
    simp
  have hsub : pt.length + n - n = pt.length := by omega
  rw [hP]
  simp only [pkcs7Unpad, hlast, hlen, hsub, List.drop_left, List.take_left,
    List.all_replicate]
  rw [if_pos]
  refine ⟨hn1, hn16, by omega, by simp⟩

/-- Well-formed AES block sequence: every block is 16 bytes. -/
def BlocksOk (bs : List (List Nat)) : Prop :=
  ∀ b ∈ bs, b.length = 16 ∧ ∀ x ∈ b, x < 256

lemma xorBytes_lt (a b : List Nat) (ha : ∀ x ∈ a, x < 256) (hb : ∀ x ∈ b, x < 256) :
    ∀ x ∈ xorBytes a b, x < 256 := by
  induction a generalizing b with
  | nil => intro x hx; simp [xorBytes] at hx
  | cons p ps ih =>
    cases b with
    | nil => intro x hx; simp [xorBytes] at hx
    | cons q qs =>
      intro x hx
      simp only [xorBytes, List.zipWith_cons_cons, List.mem_cons] at hx
      rcases hx with rfl | hx
      · exact @Nat.xor_lt_two_pow p q 8 (ha p (by simp)) (hb q (by simp))
      · exact ih qs (fun y hy => ha y (by simp [hy])) (fun y hy => hb y (by simp [hy])) x hx

lemma xorBytes_length (a b : List Nat) : (xorBytes a b).length = min a.length b.length :=
  List.length_zipWith ..

lemma xorBytes_cancel (a b : List Nat) (h : a.length = b.length) :
    xorBytes a (xorBytes a b) = b := by
  induction a generalizing b with
  | nil =>
    cases b with
    | nil => rfl
    | cons q qs => simp at h
  | cons p ps ih =>
    cases b with
    | nil => simp at h
    | cons q qs =>
      simp only [List.length_cons, Nat.succ.injEq] at h
      simp only [xorBytes, List.zipWith_cons_cons, List.cons.injEq]
      exact ⟨Nat.xor_cancel_left p q, ih qs h⟩

lemma cbcEnc_blocksOk (enc : List Nat → List Nat)
    (hencLen : ∀ b, b.length = 16 → (enc b).length = 16)
    (hencBytes : ∀ b, b.length = 16 → (∀ x ∈ b, x < 256) → ∀ x ∈ enc b, x < 256) :
    ∀ (blocks : List (List Nat)) (iv : List Nat), iv.length = 16 → (∀ x ∈ iv, x < 256) →
      BlocksOk blocks → BlocksOk (cbcEnc enc iv blocks) := by
  intro blocks
  induction blocks with
  | nil => intro iv _ _ _ b hb; simp [cbcEnc] at hb
  | cons b rest ih =>
    intro iv hivL hivB hok c hc
    obtain ⟨hbL, hbB⟩ := hok b (by simp)
    have hxL : (xorBytes iv b).length = 16 := by
      rw [xorBytes_length, hivL, hbL]
      simp
    have hxB : ∀ x ∈ xorBytes iv b, x < 256 := xorBytes_lt _ _ hivB hbB
    have hcL : (enc (xorBytes iv b)).length = 16 := hencLen _ hxL
    have hcB : ∀ x ∈ enc (xorBytes iv b), x < 256 := hencBytes _ hxL hxB
    simp only [cbcEnc, List.mem_cons] at hc
    rcases hc with rfl | hc
    · exact ⟨hcL, hcB⟩
    · exact ih (enc (xorBytes iv b)) hcL hcB (fun y hy => hok y (by simp [hy])) c hc

lemma cbcDec_cbcEnc (enc dec : List Nat → List Nat)
    (hde : ∀ b, dec (enc b) = b)
    (hencLen : ∀ b, b.length = 16 → (enc b).length = 16) :
    ∀ (blocks : List (List Nat)) (iv : List Nat), iv.length = 16 →
      (∀ b ∈ blocks, b.length = 16) →
      cbcDec dec iv (cbcEnc enc iv blocks) = blocks := by
  intro blocks
  induction blocks with
  | nil => intro iv _ _; rfl
  | cons b rest ih =>
    intro iv hivL hlen
    have hbL : b.length = 16 := hlen b (by simp)
    have hxL : (xorBytes iv b).length = 16 := by
      rw [xorBytes_length, hivL, hbL]
      simp
    simp only [cbcEnc, cbcDec, hde, List.cons.injEq]
    constructor
    · exact xorBytes_cancel iv b (by omega)
    · exact ih (enc (xorBytes iv b)) (hencLen _ hxL) (fun y hy => hlen y (by simp [hy]))

lemma concatBlocks_chunk16 (l : List Nat) : concatBlocks (chunk16 l) = l := by
  induction l using chunk16.induct with
  | case1 => simp [chunk16, concatBlocks]
  | case2 l hl ih =>
    rw [chunk16, dif_neg hl]
    simp only [concatBlocks, ih, List.take_append_drop]

lemma chunk16_concatBlocks (bs : List (List Nat)) (h : ∀ b ∈ bs, b.length = 16) :
    chunk16 (concatBlocks bs) = bs := by
  induction bs with
  | nil => simp [concatBlocks, chunk16]
  | cons b rest ih =>
    have hbL : b.length = 16 := h b (by simp)
    have hne : b ++ concatBlocks rest ≠ [] := by
      intro habs
      have := congrArg List.length habs
      simp [hbL] at this
    show chunk16 (b ++ concatBlocks rest) = b :: rest
    rw [chunk16, dif_neg hne]
    have htake : (b ++ concatBlocks rest).take 16 = b := by
      rw [show (16 : Nat) = b.length from hbL.symm, List.take_left]
    have hdrop : (b ++ concatBlocks rest).drop 16 = concatBlocks rest := by
      rw [show (16 : Nat) = b.length from hbL.symm, List.drop_left]
    rw [htake, hdrop, ih (fun y hy => h y (by simp [hy]))]

lemma concatBlocks_lt (bs : List (List Nat)) (h : BlocksOk bs) :
    ∀ x ∈ concatBlocks bs, x < 256 := by
  induction bs with
  | nil => intro x hx; simp [concatBlocks] at hx
  | cons b rest ih =>
    intro x hx
    simp only [concatBlocks, List.mem_append] at hx
    rcases hx with hx | hx
    · exact (h b (by simp)).2 x hx
    · exact ih (fun y hy => h y (by simp [hy])) x hx

lemma chunk16_blocksOk (l : List Nat) (hmod : l.length % 16 = 0)
    (hlt : ∀ x ∈ l, x < 256) : BlocksOk (chunk16 l) := by
  induction l using chunk16.induct with
  | case1 => intro b hb; simp [chunk16] at hb
  | case2 l hl ih =>
    have hpos : 0 < l.length := List.length_pos.mpr hl
    have hge : 16 ≤ l.length := by omega
    intro b hb
    rw [chunk16, dif_neg hl] at hb
    simp only [List.mem_cons] at hb
    rcases hb with rfl | hb
    · constructor
      · simp only [List.length_take]
        omega
      · intro x hx
        exact hlt x (List.take_subset _ _ hx)
    · refine ih ?_ ?_ b hb
      · simp only [List.length_drop]
        omega
      · intro x hx
        exact hlt x (List.drop_subset _ _ hx)

lemma pkcs7Pad_lt (pt : List Nat) (hpt : ∀ x ∈ pt, x < 256) :
    ∀ x ∈ pkcs7Pad pt, x < 256 := by
  intro x hx
  unfold pkcs7Pad at hx
  simp only [List.mem_append, List.mem_replicate] at hx
  rcases hx with hx | ⟨_, rfl⟩
  · exact hpt x hx
  · omega

lemma pkcs7Pad_mod (pt : List Nat) : (pkcs7Pad pt).length % 16 = 0 := by
  unfold pkcs7Pad
  simp only [List.length_append, List.length_replicate]
  omega

/-- C8: symmetric-session payload round-trip.  The body framing is
  32 hex chars of IV then base64 ciphertext; the middleware decryption
  (mwDecryptBody) is the exact inverse of the _encrypt closure
  (mwEncryptClosure) under the same key and IV: encrypting any
  plaintext with the closure and decrypting the framed result recovers
  the plaintext.  The AES block maps enc and dec under the stored key
  are abstract, assumed mutually inverse and 16-byte-preserving. -/
theorem grav_symmetric_roundtrip (enc dec : List Nat → List Nat) (iv pt : List Nat)
    (hde : ∀ b, dec (enc b) = b)
    (hencLen : ∀ b, b.length = 16 → (enc b).length = 16)
    (hencBytes : ∀ b, b.length = 16 → (∀ x ∈ b, x < 256) → ∀ x ∈ enc b, x < 256)
    (hivL : iv.length = 16) (hivB : ∀ x ∈ iv, x < 256)
    (hpt : ∀ x ∈ pt, x < 256) :
    mwDecryptBody dec (hexEncode iv ++ mwEncryptClosure enc iv pt) = some pt := by
  have hhexL : (hexEncode iv).length = 32 := by
    rw [hexEncode_length, hivL]
  have htake : (hexEncode iv ++ mwEncryptClosure enc iv pt).take 32 = hexEncode iv := by
    rw [show (32 : Nat) = (hexEncode iv).length from hhexL.symm, List.take_left]
  have hdrop : (hexEncode iv ++ mwEncryptClosure enc iv pt).drop 32 =
      mwEncryptClosure enc iv pt := by
    rw [show (32 : Nat) = (hexEncode iv).length from hhexL.symm, List.drop_left]
  have hchunkOk : BlocksOk (chunk16 (pkcs7Pad pt)) :=
    chunk16_blocksOk _ (pkcs7Pad_mod pt) (pkcs7Pad_lt pt hpt)
  have hcbcOk : BlocksOk (cbcEnc enc iv (chunk16 (pkcs7Pad pt))) :=
    cbcEnc_blocksOk enc hencLen hencBytes _ iv hivL hivB hchunkOk
  have hctB : ∀ x ∈ concatBlocks (cbcEnc enc iv (chunk16 (pkcs7Pad pt))), x < 256 :=
    concatBlocks_lt _ hcbcOk
  unfold mwDecryptBody
  rw [htake, hdrop, hexDecode_hexEncode iv hivB]
  unfold mwEncryptClosure
  rw [b64decode_b64encode _ hctB]
  show pkcs7Unpad (concatBlocks (cbcDec dec iv
    (chunk16 (concatBlocks (cbcEnc enc iv (chunk16 (pkcs7Pad pt))))))) = some pt
  rw [chunk16_concatBlocks _ (fun b hb => (hcbcOk b hb).1)]
  rw [cbcDec_cbcEnc enc dec hde hencLen _ iv hivL (fun b hb => (hchunkOk b hb).1)]
  rw [concatBlocks_chunk16]
  exact pkcs7Unpad_pkcs7Pad pt

/-- Witness for C8 with the identity block maps, a zero IV and the
  two-byte plaintext "hi". -/
theorem grav_symmetric_roundtrip_witness :
    mwDecryptBody (fun b => b)
      (hexEncode (List.replicate 16 0) ++
        mwEncryptClosure (fun b => b) (List.replicate 16 0) [104, 105]) = some [104, 105] :=
  grav_symmetric_roundtrip (fun b => b) (fun b => b) (List.replicate 16 0) [104, 105]
    (fun _ => rfl) (fun _ h => h) (fun _ _ h => h) (by simp)
    (fun x hx => by simp at hx; omega) (by decide)

/-! # GraValMiddleware._dispatch (run.py, lines 120-276)

  Functional model of one pass through the inner dispatch.  The
  request carries the client address classification flags (read from
  the external ipaddress library), the path, the four auth headers,
  the HTTP method and the raw body bytes.  External functions
  (sr25519 verify, sha256 hex digest, json parsing of the exchange
  body, the graval enclave decrypt, the AES block decrypt) are fields
  of the environment.  The initial
  "request.client.host == 127.0.0.1 and False" branch of the source is
  dead code and is not modelled. -/

/-- Host configuration installed by run_chute: expected hotkeys and
  the graval seed. -/
structure MinerCfg where
  minerSS58 : String
  validatorSS58 : String
  seed : Int

/-- Client address classification flags as computed by the external
  ipaddress library for request.client.host. -/
structure ClientAddr where
  is_private : Bool
  is_loopback : Bool
  is_link_local : Bool
  is_multicast : Bool
  is_reserved : Bool
  is_unspecified : Bool

/-- The "is_private" disjunction of run.py lines 131-138. -/
def addrPrivate (a : ClientAddr) : Bool :=
  a.is_private || a.is_loopback || a.is_link_local || a.is_multicast ||
    a.is_reserved || a.is_unspecified

/-- The four X-Chutes-* headers; none models an absent header. -/
structure AuthHeaders where
  miner : Option String
  validator : Option String
  nonce : Option String
  sig : Option String

/-- One sub-payload of the legacy asymmetric exchange envelope, at the
  parsed-JSON level; each field is none when the key is absent. -/
structure ExPayload where
  ciphertext : Option String
  iv : Option String
  payloadLength : Option Int
  device_id : Option Int
  seed : Option Int
deriving DecidableEq

/-- Inbound request as seen by the middleware. -/
structure Req where
  addr : ClientAddr
  path : String
  headers : AuthHeaders
  method : String
  body : List Nat

/-- Environment: configuration plus the external primitives. -/
structure Env where
  cfg : MinerCfg
  verify : String → List Nat → Bool
  sha256hex : List Nat → String
  jparse : List Nat → Option (List (String × ExPayload))
  gdec : ExPayload → Option String
  blockDec : List Nat → List Nat → List Nat

/-- Result of the middleware for one request: an own response with a
  status code, invocation of the wrapped handler (call_next), or an
  uncaught exception. -/
inductive MWResult where
  | resp (code : Nat)
  | next
  | crash
deriving DecidableEq

/-- Truthiness of an optional header string (Python: not v). -/
def strFalsy : Option String → Bool
  | none => true
  | some s => s = ""

/-- request.method in ("POST", "PUT", "PATCH"). -/
def isMutating (m : String) : Bool := m = "POST" || m = "PUT" || m = "PATCH"

/-- body_bytes: read only for mutating methods. -/
def bodyOpt (r : Req) : Option (List Nat) :=
  if isMutating r.method then some r.body else none

/-- str.endswith(suffix) on the character lists of the strings. -/
def strEndsWith (s suffix : String) : Bool :=
  decide (List.drop (s.data.length - suffix.data.length) s.data = suffix.data)

/-- Paths that bypass everything except the private-address check
  (run.py line 129: path.endswith(("/_alive", "/_metrics"))). -/
def isInternalPath (p : String) : Bool :=
  strEndsWith p "/_alive" || strEndsWith p "/_metrics"

/-- Paths that bypass the admission control in dispatch
  (run.py lines 283-293). -/
def isExemptOuter (p : String) : Bool :=
  strEndsWith p "/_fs_challenge" || strEndsWith p "/_alive" || strEndsWith p "/_metrics" ||
    strEndsWith p "/_ping" || strEndsWith p "/_device_challenge" || strEndsWith p "/_procs" ||
    strEndsWith p "/_slurp"

/-! ## Python int() parsing of the nonce header

  int(nonce) accepts optional surrounding whitespace, an optional
  sign, and a nonempty digit run in which single underscores may
  separate digits; anything else raises ValueError (modelled as
  none). -/

/-- Digit run continuation: digits with single interior underscores. -/
def pyDigitsRest : List Char → Bool
  | [] => true
  | c :: rest =>
    if c.isDigit then pyDigitsRest rest
    else if c = '_' then
      match rest with
      | [] => false
      | d :: rest2 => d.isDigit && pyDigitsRest rest2
    else false

/-- Nonempty digit run with single interior underscores. -/
def pyDigits : List Char → Bool
  | [] => false
  | c :: rest => c.isDigit && pyDigitsRest rest

/-- Numeric value of a digit-and-underscore run. -/
def pyDigitsVal (l : List Char) : Nat :=
  l.foldl (fun a c => if c = '_' then a else a * 10 + (c.toNat - 48)) 0

/-- str.strip() of surrounding whitespace. -/
def pyStrip (l : List Char) : List Char :=
  ((l.dropWhile Char.isWhitespace).reverse.dropWhile Char.isWhitespace).reverse

/-- Python int(s) for a decimal string; none models ValueError. -/
def pyIntParse (s : String) : Option Int :=
  match pyStrip s.data with
  | [] => none
  | c :: rest =>
    if c = '+' then (if pyDigits rest then some (pyDigitsVal rest : Int) else none)
    else if c = '-' then (if pyDigits rest then some (-(pyDigitsVal rest : Int)) else none)
    else if pyDigits (c :: rest) then some (pyDigitsVal (c :: rest) : Int) else none

/-- ASCII codes of a string (for hashing and hex parsing). -/
def asciiCodes (s : String) : List Nat := s.data.map Char.toNat

/-- Result of the header authentication gate (run.py lines 147-177). -/
inductive AuthRes where
  | pass
  | failMissing
  | failSig
  | crash
deriving DecidableEq

/-- hashlib.sha256(body).hexdigest() if body_bytes else "chutes". -/
def payloadString (env : Env) (r : Req) : String :=
  match bodyOpt r with
  | some b => if b = [] then "chutes" else env.sha256hex b
  | none => "chutes"

/-- The canonical string miner:validator:nonce:payload. -/
def canonicalString (r : Req) (payload : String) : String :=
  r.headers.miner.getD "" ++ ":" ++ r.headers.validator.getD "" ++ ":" ++
    r.headers.nonce.getD "" ++ ":" ++ payload

/-- The header authentication gate: presence and truthiness of all
  four headers, identity equality with the configured hotkeys, the
  nonce staleness check int(time.time()) - int(nonce) >= 30, and
  sr25519 verification of the canonical string against
  bytes.fromhex(signature).  int() or fromhex conversion errors are
  uncaught in the source (crash). -/
def authGate (env : Env) (now : Int) (r : Req) : AuthRes :=
  if strFalsy r.headers.miner || strFalsy r.headers.validator ||
      strFalsy r.headers.nonce || strFalsy r.headers.sig then .failMissing
  else if r.headers.validator.getD "" ≠ env.cfg.validatorSS58 then .failMissing
  else if r.headers.miner.getD "" ≠ env.cfg.minerSS58 then .failMissing
  else
    match pyIntParse (r.headers.nonce.getD "") with
    | none => .crash
    | some nv =>
      if 30 ≤ now - nv then .failMissing
      else
        match hexDecode (asciiCodes (r.headers.sig.getD "")) with
        | none => .crash
        | some sigBytes =>
          if env.verify (canonicalString r (payloadString env r)) sigBytes then .pass
          else .failSig

/-- All five required fields present in an exchange sub-payload. -/
def fieldsPresent (p : ExPayload) : Bool :=
  p.ciphertext.isSome && p.iv.isSome && p.payloadLength.isSome &&
    p.device_id.isSome && p.seed.isSome

/-- The per-key loop of the exchange handler: field check (400), seed
  check (400), enclave decrypt with the assert (500 on any failure). -/
def decryptEntries (env : Env) : List (String × ExPayload) →
    Except Nat (List (String × String))
  | [] => .ok []
  | (k, p) :: rest =>
    if !fieldsPresent p then .error 400
    else if p.seed ≠ some env.cfg.seed then .error 400
    else
      match env.gdec p with
      | none => .error 500
      | some s =>
        if s = "" then .error 500
        else (decryptEntries env rest).map (fun m => (k, s) :: m)

/-- The /_exchange handler (run.py lines 186-241): parse the JSON
  body, decrypt every sub-payload, extract the symmetric_key entry,
  store bytes.fromhex of it and answer 200 {ok:true}. -/
def exchangeHandler (env : Env) (key : Option (List Nat)) (r : Req) :
    MWResult × Option (List Nat) :=
  match bodyOpt r with
  | none => (.crash, key)
  | some b =>
    match env.jparse b with
    | none => (.crash, key)
    | some entries =>
      match decryptEntries env entries with
      | .error c => (.resp c, key)
      | .ok m =>
        match m.lookup "symmetric_key" with
        | none => (.resp 400, key)
        | some secret =>
          if secret = "" then (.resp 400, key)
          else
            match hexDecode (asciiCodes secret) with
            | none => (.crash, key)
            | some kb => (.resp 200, some kb)

/-- Python truthiness of the stored symmetric key
  (not self.symmetric_key). -/
def keyFalsy : Option (List Nat) → Bool
  | none => true
  | some k => k.isEmpty

/-- One pass of GraValMiddleware._dispatch: internal-path check,
  header authentication, key-exchange gating (426), the exchange
  handler, and symmetric decryption of mutating bodies before
  call_next.  Returns the middleware result and the symmetric key
  after the request. -/
def dispatchInner (env : Env) (key : Option (List Nat)) (now : Int) (r : Req) :
    MWResult × Option (List Nat) :=
  if isInternalPath r.path then
    if !addrPrivate r.addr then (.resp 401, key) else (.next, key)
  else
    match authGate env now r with
    | .crash => (.crash, key)
    | .failMissing => (.resp 401, key)
    | .failSig => (.resp 401, key)
    | .pass =>
      if keyFalsy key && r.path ≠ "/_exchange" then (.resp 426, key)
      else if r.path = "/_exchange" then exchangeHandler env key r
      else if isMutating r.method then
        match mwDecryptBody (env.blockDec (key.getD [])) r.body with
        | none => (.crash, key)
        | some _ => (.next, key)
      else (.next, key)

/-- One pass of GraValMiddleware.dispatch for a single request with
  the semaphore value sem: exempt paths skip admission entirely;
  otherwise a saturated semaphore answers 429 and an available slot
  is acquired before the inner dispatch runs.  (Release timing is
  modelled by the admission transition system below.) -/
def dispatchOuter (env : Env) (key : Option (List Nat)) (now : Int) (r : Req)
    (sem : Nat) : MWResult × Option (List Nat) × Nat :=
  if isExemptOuter r.path then
    let inner := dispatchInner env key now r
    (inner.1, inner.2, sem)
  else if sem = 0 then (.resp 429, key, sem)
  else
    let inner := dispatchInner env key now r
    (inner.1, inner.2, sem - 1)

lemma authGate_pass_elim (env : Env) (now : Int) (r : Req)
    (h : authGate env now r = .pass) :
    strFalsy r.headers.miner = false ∧ strFalsy r.headers.validator = false ∧
    strFalsy r.headers.nonce = false ∧ strFalsy r.headers.sig = false ∧
    r.headers.validator.getD "" = env.cfg.validatorSS58 ∧
    r.headers.miner.getD "" = env.cfg.minerSS58 ∧
    (∃ nv, pyIntParse (r.headers.nonce.getD "") = some nv ∧ now - nv < 30) ∧
    (∃ sg, hexDecode (asciiCodes (r.headers.sig.getD "")) = some sg ∧
      env.verify (canonicalString r (payloadString env r)) sg = true) := by
  unfold authGate at h
  by_cases h1 : (strFalsy r.headers.miner || strFalsy r.headers.validator ||
      strFalsy r.headers.nonce || strFalsy r.headers.sig) = true
  · rw [if_pos h1] at h
    exact absurd h (by simp)
  · rw [if_neg h1] at h
    simp only [Bool.or_eq_true, not_or, Bool.not_eq_true] at h1
    obtain ⟨⟨⟨hm, hv⟩, hn⟩, hs⟩ := h1
    by_cases h2 : r.headers.validator.getD "" ≠ env.cfg.validatorSS58
    · rw [if_pos h2] at h
      exact absurd h (by simp)
    · rw [if_neg h2] at h
      push_neg at h2
      by_cases h3 : r.headers.miner.getD "" ≠ env.cfg.minerSS58
      · rw [if_pos h3] at h
        exact absurd h (by simp)
      · rw [if_neg h3] at h
        push_neg at h3
        cases hnv : pyIntParse (r.headers.nonce.getD "") with
        | none =>
          rw [hnv] at h
          exact absurd h (by simp)
        | some nv =>
          rw [hnv] at h
          simp only [] at h
          by_cases h4 : (30 : Int) ≤ now - nv
          · rw [if_pos h4] at h
            exact absurd h (by simp)
          · rw [if_neg h4] at h
            cases hsg : hexDecode (asciiCodes (r.headers.sig.getD "")) with
            | none =>
              rw [hsg] at h
              exact absurd h (by simp)
            | some sg =>
              rw [hsg] at h
              simp only [] at h
              by_cases h5 : env.verify (canonicalString r (payloadString env r)) sg = true
              · exact ⟨hm, hv, hn, hs, h2, h3, ⟨nv, rfl, by omega⟩, ⟨sg, rfl, h5⟩⟩
              · rw [if_neg h5] at h
                exact absurd h (by simp)

lemma authGate_pass_intro (env : Env) (now : Int) (r : Req) (nv : Int) (sg : List Nat)
    (hm : strFalsy r.headers.miner = false) (hv : strFalsy r.headers.validator = false)
    (hn : strFalsy r.headers.nonce = false) (hs : strFalsy r.headers.sig = false)
    (h2 : r.headers.validator.getD "" = env.cfg.validatorSS58)
    (h3 : r.headers.miner.getD "" = env.cfg.minerSS58)
    (hnv : pyIntParse (r.headers.nonce.getD "") = some nv)
    (h4 : now - nv < 30)
    (hsg : hexDecode (asciiCodes (r.headers.sig.getD "")) = some sg)
    (h5 : env.verify (canonicalString r (payloadString env r)) sg = true) :
    authGate env now r = .pass := by
  have h4' : ¬ (30 ≤ now - nv) := by omega
  simp [authGate, hm, hv, hn, hs, h2, h3, hnv, hsg, h5, h4']

lemma authGate_no_crash (env : Env) (now : Int) (r : Req) (nv : Int) (sg : List Nat)
    (hnv : pyIntParse (r.headers.nonce.getD "") = some nv)
    (hsg : hexDecode (asciiCodes (r.headers.sig.getD "")) = some sg) :
    authGate env now r ≠ .crash := by
  intro h
  unfold authGate at h
  split at h
  · simp at h
  · split at h
    · simp at h
    · split at h
      · simp at h
      · split at h
        · simp_all
        · split at h
          · simp at h
          · split at h
            · simp_all
            · split at h <;> simp at h

lemma dispatchInner_auth401 (env : Env) (key : Option (List Nat)) (now : Int) (r : Req)
    (hint : isInternalPath r.path = false)
    (h : authGate env now r = .failMissing ∨ authGate env now r = .failSig) :
    dispatchInner env key now r = (.resp 401, key) := by
  unfold dispatchInner
  simp only [hint, Bool.false_eq_true, if_false, ite_false]
  rcases h with h | h <;> rw [h]

lemma exchangeHandler_ne_next (env : Env) (key : Option (List Nat)) (r : Req) :
    (exchangeHandler env key r).1 ≠ MWResult.next := by
  cases hb : bodyOpt r with
  | none => simp [exchangeHandler, hb]
  | some b =>
    cases hj : env.jparse b with
    | none => simp [exchangeHandler, hb, hj]
    | some entries =>
      cases hd : decryptEntries env entries with
      | error c => simp [exchangeHandler, hb, hj, hd]
      | ok m =>
        cases hl : m.lookup "symmetric_key" with
        | none => simp [exchangeHandler, hb, hj, hd, hl]
        | some secret =>
          by_cases hsec : secret = ""
          · simp [exchangeHandler, hb, hj, hd, hl, hsec]
          · cases hx : hexDecode (asciiCodes secret) with
            | none => simp [exchangeHandler, hb, hj, hd, hl, hsec, hx]
            | some kb => simp [exchangeHandler, hb, hj, hd, hl, hsec, hx]

/-- C2 (amended): the authentication gate passes a request exactly when
  all four headers are present and non-empty, both identities equal
  the configured ones, the nonce satisfies the one-sided staleness
  check now - nonce < 30 (future-dated nonces are accepted; the code
  places no lower bound on now - nonce), and the signature verifies
  against miner:validator:nonce:sha256(body) (sentinel "chutes" for an
  empty or absent body); among requests whose nonce parses as a
  decimal integer and whose signature is valid hex, every failing
  request is answered 401 by the middleware. -/
theorem grav_auth_gate (env : Env) (now : Int) (r : Req) (key : Option (List Nat)) :
    (authGate env now r = .pass →
      strFalsy r.headers.miner = false ∧ strFalsy r.headers.validator = false ∧
      strFalsy r.headers.nonce = false ∧ strFalsy r.headers.sig = false ∧
      r.headers.validator.getD "" = env.cfg.validatorSS58 ∧
      r.headers.miner.getD "" = env.cfg.minerSS58 ∧
      (∃ nv, pyIntParse (r.headers.nonce.getD "") = some nv ∧ now - nv < 30) ∧
      (∃ sg, hexDecode (asciiCodes (r.headers.sig.getD "")) = some sg ∧
        env.verify (canonicalString r (payloadString env r)) sg = true)) ∧
    (∀ nv sg, pyIntParse (r.headers.nonce.getD "") = some nv →
      hexDecode (asciiCodes (r.headers.sig.getD "")) = some sg →
      strFalsy r.headers.miner = false → strFalsy r.headers.validator = false →
      strFalsy r.headers.nonce = false → strFalsy r.headers.sig = false →
      r.headers.validator.getD "" = env.cfg.validatorSS58 →
      r.headers.miner.getD "" = env.cfg.minerSS58 →
      now - nv < 30 →
      env.verify (canonicalString r (payloadString env r)) sg = true →
      authGate env now r = .pass) ∧
    (∀ nv sg, pyIntParse (r.headers.nonce.getD "") = some nv →
      hexDecode (asciiCodes (r.headers.sig.getD "")) = some sg →
      (authGate env now r = .pass ∨ authGate env now r = .failMissing ∨
        authGate env now r = .failSig)) ∧
    ((authGate env now r = .failMissing ∨ authGate env now r = .failSig) →
      isInternalPath r.path = false → dispatchInner env key now r = (.resp 401, key)) := by
  refine ⟨authGate_pass_elim env now r, ?_, ?_, ?_⟩
  · intro nv sg hnv hsg hm hv hn hs h2 h3 h4 h5
    exact authGate_pass_intro env now r nv sg hm hv hn hs h2 h3 hnv h4 hsg h5
  · intro nv sg hnv hsg
    have hnc := authGate_no_crash env now r nv sg hnv hsg
    cases hA : authGate env now r
    · exact Or.inl rfl
    · exact Or.inr (Or.inl rfl)
    · exact Or.inr (Or.inr rfl)
    · exact absurd hA hnc
  · intro h hint
    exact dispatchInner_auth401 env key now r hint h

/-- Concrete environment for witnesses: expected identities m / v,
  seed 0, a verifier that accepts everything. -/
def envW : Env :=
  { cfg := { minerSS58 := "m", validatorSS58 := "v", seed := 0 }
    verify := fun _ _ => true
    sha256hex := fun _ => "h"
    jparse := fun _ => none
    gdec := fun _ => none
    blockDec := fun _ b => b }

def addrPub : ClientAddr :=
  { is_private := false, is_loopback := false, is_link_local := false,
    is_multicast := false, is_reserved := false, is_unspecified := false }

def addrPriv : ClientAddr :=
  { is_private := true, is_loopback := false, is_link_local := false,
    is_multicast := false, is_reserved := false, is_unspecified := false }

/-- A correctly-headed request to an ordinary path. -/
def reqW : Req :=
  { addr := addrPub, path := "/x"
    headers := { miner := some "m", validator := some "v", nonce := some "100", sig := some "aa" }
    method := "GET", body := [] }

/-- Same request with a wrong validator identity. -/
def reqWrongVal : Req :=
  { addr := addrPub, path := "/x"
    headers := { miner := some "m", validator := some "z", nonce := some "100", sig := some "aa" }
    method := "GET", body := [] }

/-- Witness for C2: at now = 100, the valid request passes the gate,
  and the wrong-validator request is answered 401. -/
theorem grav_auth_gate_witness :
    authGate envW 100 reqW = .pass ∧
    dispatchInner envW (some [1]) 100 reqWrongVal = (.resp 401, some [1]) := by
  constructor
  · exact (grav_auth_gate envW 100 reqW (some [1])).2.1 100 [170] (by decide) (by decide)
      (by decide) (by decide) (by decide) (by decide) rfl rfl (by decide) rfl
  · exact (grav_auth_gate envW 100 reqWrongVal (some [1])).2.2.2
      (Or.inl (by decide)) (by decide)

/-- Request with a far-future nonce (now = 0, nonce = 1000000). -/
def reqFuture : Req :=
  { addr := addrPub, path := "/x"
    headers := { miner := some "m", validator := some "v", nonce := some "1000000",
                 sig := some "aa" }
    method := "GET", body := [] }

/-- C2 counterexample: the gate accepts a request whose nonce is one
  million seconds in the future, so acceptance does not imply
  |now - nonce| < 30: the staleness check is one-sided. -/
theorem grav_auth_window_cex :
    ¬ (authGate envW 0 reqFuture = .pass → ((0 : Int) - 1000000).natAbs < 30) := by
  decide

/-- C10: with all four headers present and non-empty and both
  identities matching, a nonce that int() cannot parse makes the
  header check raise an uncaught conversion error: the gate crashes
  instead of returning 401, and the middleware produces no response. -/
theorem grav_nonce_crash (env : Env) (now : Int) (r : Req) (key : Option (List Nat))
    (hm : strFalsy r.headers.miner = false) (hv : strFalsy r.headers.validator = false)
    (hn : strFalsy r.headers.nonce = false) (hs : strFalsy r.headers.sig = false)
    (h2 : r.headers.validator.getD "" = env.cfg.validatorSS58)
    (h3 : r.headers.miner.getD "" = env.cfg.minerSS58)
    (hnv : pyIntParse (r.headers.nonce.getD "") = none)
    (hint : isInternalPath r.path = false) :
    authGate env now r = .crash ∧ dispatchInner env key now r = (.crash, key) := by
  have hA : authGate env now r = .crash := by
    simp [authGate, hm, hv, hn, hs, h2, h3, hnv]
  refine ⟨hA, ?_⟩
  unfold dispatchInner
  simp only [hint, Bool.false_eq_true, if_false, ite_false]
  rw [hA]

/-- Request whose nonce header is not a decimal string. -/
def reqNonDecimal : Req :=
  { addr := addrPub, path := "/x"
    headers := { miner := some "m", validator := some "v", nonce := some "abc",
                 sig := some "aa" }
    method := "GET", body := [] }

/-- Witness for C10 at the concrete nonce "abc". -/
theorem grav_nonce_crash_witness :
    authGate envW 0 reqNonDecimal = .crash ∧
    dispatchInner envW (some [1]) 0 reqNonDecimal = (.crash, some [1]) :=
  grav_nonce_crash envW 0 reqNonDecimal (some [1]) (by decide) (by decide) (by decide)
    (by decide) rfl rfl (by decide) (by decide)

/-- C3: key-exchange gating.  With no symmetric key established, the
  wrapped handler is reached only on the internal liveness/metrics
  paths; every authenticated request to a non-internal path other
  than /_exchange is answered 426 Upgrade Required with the key still
  unset, so no payload other than the handshake and the internal
  endpoints is processed before a key has been exchanged. -/
theorem grav_key_exchange_gating (env : Env) (now : Int) (r : Req) :
    ((dispatchInner env none now r).1 = MWResult.next → isInternalPath r.path = true) ∧
    (isInternalPath r.path = false → authGate env now r = .pass →
      r.path ≠ "/_exchange" → dispatchInner env none now r = (.resp 426, none)) := by
  constructor
  · intro hnext
    by_cases hint : isInternalPath r.path = true
    · exact hint
    · exfalso
      have hint' : isInternalPath r.path = false := by
        cases h : isInternalPath r.path
        · rfl
        · exact absurd h hint
      unfold dispatchInner at hnext
      simp only [hint', Bool.false_eq_true, if_false, ite_false] at hnext
      cases hA : authGate env now r <;> rw [hA] at hnext <;> simp only [] at hnext
      · by_cases hex : r.path = "/_exchange"
        · simp only [keyFalsy, hex] at hnext
          simp at hnext
          exact exchangeHandler_ne_next env none r hnext
        · simp [keyFalsy, hex] at hnext
      · simp at hnext
      · simp at hnext
      · simp at hnext
  · intro hint hpass hne
    unfold dispatchInner
    simp only [hint, Bool.false_eq_true, if_false, ite_false]
    rw [hpass]
    simp [keyFalsy, hne]

/-- Witness for C3: the authenticated request to /x with no key
  established is answered 426. -/
theorem grav_key_exchange_gating_witness :
    dispatchInner envW none 100 reqW = (.resp 426, none) :=
  (grav_key_exchange_gating envW 100 reqW).2 (by decide)
    ((grav_auth_gate envW 100 reqW none).2.1 100 [170] (by decide) (by decide)
      (by decide) (by decide) (by decide) (by decide) rfl rfl (by decide) rfl)
    (by decide)

/-- C7 (amended): the exempt suffixes (/_fs_challenge, /_alive,
  /_metrics, /_ping, /_device_challenge, /_procs, /_slurp) bypass
  admission control entirely (no 429 and no slot change even with a
  saturated semaphore), but only the internal liveness/metrics paths
  (/_alive, /_metrics) bypass signature verification: on those a
  caller whose address the ipaddress library does not classify as
  private/loopback/link-local/multicast/reserved/unspecified is
  rejected 401 and a private caller is passed straight to the
  handler, while the remaining exempt paths still go through the
  header authentication gate (401 on missing headers). -/
theorem grav_exempt_paths (env : Env) (key : Option (List Nat)) (now : Int) (r : Req)
    (sem : Nat) :
    (isExemptOuter r.path = true →
      dispatchOuter env key now r sem =
        ((dispatchInner env key now r).1, (dispatchInner env key now r).2, sem)) ∧
    (isInternalPath r.path = true → addrPrivate r.addr = false →
      dispatchInner env key now r = (.resp 401, key)) ∧
    (isInternalPath r.path = true → addrPrivate r.addr = true →
      dispatchInner env key now r = (.next, key)) ∧
    (isInternalPath r.path = false → authGate env now r = .failMissing →
      dispatchInner env key now r = (.resp 401, key)) := by
  refine ⟨?_, ?_, ?_, ?_⟩
  · intro hex
    simp [dispatchOuter, hex]
  · intro hint hpriv
    simp [dispatchInner, hint, hpriv]
  · intro hint hpriv
    simp [dispatchInner, hint, hpriv]
  · intro hint hfail
    exact dispatchInner_auth401 env key now r hint (Or.inl hfail)

/-- Liveness request from a private address with no auth headers. -/
def reqAlivePriv : Req :=
  { addr := addrPriv, path := "/v1/_alive"
    headers := { miner := none, validator := none, nonce := none, sig := none }
    method := "GET", body := [] }

/-- Witness for C7: with a saturated semaphore (sem = 0) the
  headerless liveness request from a private address is neither
  rate-limited nor authenticated: it reaches the handler. -/
theorem grav_exempt_paths_witness :
    dispatchOuter envW (some [1]) 0 reqAlivePriv 0 = (.next, some [1], 0) := by
  have h1 := (grav_exempt_paths envW (some [1]) 0 reqAlivePriv 0).1 (by decide)
  have h3 := (grav_exempt_paths envW (some [1]) 0 reqAlivePriv 0).2.2.1 (by decide) (by decide)
  rw [h1, h3]

/-- Device-challenge request from a private address with no headers. -/
def reqDevPriv : Req :=
  { addr := addrPriv, path := "/_device_challenge"
    headers := { miner := none, validator := none, nonce := none, sig := none }
    method := "GET", body := [] }

/-- C7 counterexample: the claim says every exempt path bypasses
  signature verification and a private caller is passed through to
  the handler, but the private headerless request to
  /_device_challenge is rejected 401 by the authentication gate. -/
theorem grav_exempt_claim_cex :
    (dispatchOuter envW (some [1]) 0 reqDevPriv 5).1 = .resp 401 ∧
    ¬ (dispatchOuter envW (some [1]) 0 reqDevPriv 5).1 = MWResult.next := by
  decide

lemma dispatchInner_key_unchanged (env : Env) (key : Option (List Nat)) (now : Int)
    (r : Req) (hne : r.path ≠ "/_exchange") :
    (dispatchInner env key now r).2 = key := by
  by_cases hint : isInternalPath r.path = true
  · by_cases hp : addrPrivate r.addr = true
    · simp [dispatchInner, hint, hp]
    · simp [dispatchInner, hint, hp]
  · have hint2 : isInternalPath r.path = false := by
      cases h : isInternalPath r.path
      · rfl
      · exact absurd h hint
    unfold dispatchInner
    simp only [hint2, Bool.false_eq_true, if_false, ite_false]
    cases hA : authGate env now r
    case neg.pass =>
      simp only []
      by_cases hk : (keyFalsy key && decide (r.path ≠ "/_exchange")) = true
      · simp only [Bool.and_eq_true, decide_eq_true_eq] at hk
        simp only [Bool.and_eq_true, decide_eq_true_eq]
        rw [if_pos hk]
      · have hk2 : (keyFalsy key && decide (r.path ≠ "/_exchange")) = false := by
          cases h : (keyFalsy key && decide (r.path ≠ "/_exchange"))
          · rfl
          · exact absurd h hk
        simp only [hk2, Bool.false_eq_true, if_false, ite_false]
        rw [if_neg hne]
        by_cases hm : isMutating r.method = true
        · simp only [hm, if_true, ite_true]
          cases hd : mwDecryptBody (env.blockDec (key.getD [])) r.body <;> simp [hd]
        · simp [hm]
    all_goals rfl

/-- C9 (amended): the symmetric key is written only by the /_exchange
  handler: every request to any other path leaves the stored key
  unchanged, observing either the unset state (426) or the current
  key; a successful /_exchange stores bytes.fromhex of the decrypted
  symmetric_key entry and responds 200 {ok:true} - and it does so
  regardless of whether a key was already established, so a repeated
  exchange overwrites the previous key. -/
theorem grav_symmetric_key_writes (env : Env) (key : Option (List Nat)) (now : Int)
    (r : Req) :
    (r.path ≠ "/_exchange" → (dispatchInner env key now r).2 = key) ∧
    (∀ b entries m secret kb,
      r.path = "/_exchange" → isInternalPath r.path = false →
      authGate env now r = .pass →
      bodyOpt r = some b → env.jparse b = some entries →
      decryptEntries env entries = .ok m →
      m.lookup "symmetric_key" = some secret → secret ≠ "" →
      hexDecode (asciiCodes secret) = some kb →
      dispatchInner env key now r = (.resp 200, some kb)) := by
  constructor
  · exact dispatchInner_key_unchanged env key now r
  · intro b entries m secret kb hex hint hpass hb hj hd hl hsec hx
    unfold dispatchInner
    simp only [hint, Bool.false_eq_true, if_false, ite_false]
    rw [hpass]
    simp only [hex]
    simp [exchangeHandler, hb, hj, hd, hl, hsec, hx]

/-- Environment for the exchange fixtures: the enclave decrypt returns
  the ciphertext field, and the JSON parser produces one
  symmetric_key sub-payload whose ciphertext depends on the body. -/
def env9 : Env :=
  { cfg := { minerSS58 := "m", validatorSS58 := "v", seed := 0 }
    verify := fun _ _ => true
    sha256hex := fun _ => "h"
    jparse := fun b => some [("symmetric_key",
      { ciphertext := some (if b = [1] then "aa" else "bb"), iv := some "00",
        payloadLength := some 0, device_id := some 0, seed := some 0 })]
    gdec := fun p => p.ciphertext
    blockDec := fun _ b => b }

/-- An authenticated POST /_exchange request with body [n]. -/
def exReq (n : Nat) : Req :=
  { addr := addrPub, path := "/_exchange"
    headers := { miner := some "m", validator := some "v", nonce := some "100", sig := some "aa" }
    method := "POST", body := [n] }

def exPayload1 : ExPayload :=
  { ciphertext := some "aa", iv := some "00", payloadLength := some 0,
    device_id := some 0, seed := some 0 }

/-- Witness for C9: a successful exchange stores the decoded key and
  answers 200, and a non-exchange request leaves the key unchanged. -/
theorem grav_symmetric_key_writes_witness :
    dispatchInner env9 none 100 (exReq 1) = (.resp 200, some [170]) ∧
    (dispatchInner envW (some [5]) 100 reqW).2 = some [5] :=
  ⟨(grav_symmetric_key_writes env9 none 100 (exReq 1)).2 [1]
      [("symmetric_key", exPayload1)] [("symmetric_key", "aa")] "aa" [170]
      rfl (by decide) (by decide) (by decide) (by decide) rfl (by decide)
      (by decide) (by decide),
    (grav_symmetric_key_writes envW (some [5]) 100 reqW).1 (by decide)⟩

/-- C9 counterexample: the symmetric key is not written exactly once -
  a second authenticated /_exchange overwrites the established key,
  here replacing the stored key aa (170) with bb (187). -/
theorem grav_symmetric_key_rewrite_cex :
    (dispatchInner env9 none 100 (exReq 1)).2 = some [170] ∧
    (dispatchInner env9 (some [170]) 100 (exReq 2)).2 ≠ some [170] := by decide

/-! # AdmissionController (GraValMiddleware.dispatch, run.py lines 278-326)

  Claim C1.  The outer dispatch holds self.lock while it checks
  rate_limiter.locked() and acquires a slot, so saturation check and
  acquisition are atomic (one tryAdmit step).  After the inner
  dispatch returns: a response without body_iterator releases the
  slot in the finally block (finishBuffered, which also covers an
  exception from the handler, response = None); a streaming response
  wraps its body_iterator and releases only in that iterator's
  finally block (finalize), which asyncio guarantees to run exactly
  once whether the stream is exhausted, fails mid-iteration or is
  closed early - startStream and chunk steps release nothing.
  Interleaving of concurrent requests is modelled by arbitrary label
  sequences over a shared semaphore value. -/

/-- Lifecycle phase of one tracked request. -/
inductive Phase where
  | idle
  | rejected
  | admitted
  | streaming (pending : Nat)
  | released
deriving DecidableEq

/-- One atomic event of the admission controller, tagged with the
  index of the request it belongs to. -/
inductive AdmLabel where
  | tryAdmit (i : Nat)
  | finishBuffered (i : Nat)
  | startStream (i : Nat) (chunks : Nat)
  | chunk (i : Nat)
  | finalize (i : Nat)
deriving DecidableEq

/-- Shared state: semaphore value and the phase of every request. -/
structure AdmState where
  sem : Nat
  reqs : List Phase
deriving DecidableEq

/-- One step of the admission protocol; none when the label is not
  enabled in the current state.  tryAdmit is the lock-protected
  saturation check plus acquire: with sem = 0 the request is rejected
  429, otherwise the slot is taken.  finishBuffered is the
  finally-block release for buffered responses and handler errors.
  startStream hands the slot to the wrapped iterator (no release at
  handler return); chunk yields one chunk; finalize is the wrapped
  iterator's finally block (normal end with pending = 0 or mid-stream
  failure with pending > 0) and performs the single release. -/
def admStep (s : AdmState) (l : AdmLabel) : Option AdmState :=
  match l with
  | .tryAdmit i =>
    match s.reqs.get? i with
    | some .idle =>
      if s.sem = 0 then some ⟨s.sem, s.reqs.set i .rejected⟩
      else some ⟨s.sem - 1, s.reqs.set i .admitted⟩
    | _ => none
  | .finishBuffered i =>
    match s.reqs.get? i with
    | some .admitted => some ⟨s.sem + 1, s.reqs.set i .released⟩
    | _ => none
  | .startStream i n =>
    match s.reqs.get? i with
    | some .admitted => some ⟨s.sem, s.reqs.set i (.streaming n)⟩
    | _ => none
  | .chunk i =>
    match s.reqs.get? i with
    | some (.streaming (n + 1)) => some ⟨s.sem, s.reqs.set i (.streaming n)⟩
    | _ => none
  | .finalize i =>
    match s.reqs.get? i with
    | some (.streaming _) => some ⟨s.sem + 1, s.reqs.set i .released⟩
    | _ => none

/-- Run a sequence of admission events. -/
def admRun (s : AdmState) : List AdmLabel → Option AdmState
  | [] => some s
  | l :: ls => (admStep s l).bind (fun s2 => admRun s2 ls)

/-- Initial state: concurrency many free slots, n idle requests. -/
def admInit (concurrency n : Nat) : AdmState :=
  ⟨concurrency, List.replicate n .idle⟩

/-- A request in this phase holds an admission slot. -/
def Phase.holdsSlot : Phase → Bool
  | .admitted => true
  | .streaming _ => true
  | _ => false

/-- Number of outstanding (acquired, not yet released) slots. -/
def outstanding (s : AdmState) : Nat := s.reqs.countP Phase.holdsSlot

/-- The labels that release the slot of request i. -/
def releasesFor (i : Nat) : AdmLabel → Bool
  | .finishBuffered j => j = i
  | .finalize j => j = i
  | _ => false

lemma countP_set_eq (l : List Phase) (i : Nat) (p v : Phase) (f : Phase → Bool)
    (h : l.get? i = some p) :
    (l.set i v).countP f + (if f p then 1 else 0) = l.countP f + (if f v then 1 else 0) := by
  induction l generalizing i with
  | nil => simp at h
  | cons a t ih =>
    cases i with
    | zero =>
      simp only [List.get?] at h
      injection h with h
      subst h
      simp only [List.set, List.countP_cons]
      omega
    | succ j =>
      simp only [List.get?] at h
      simp only [List.set, List.countP_cons]
      have := ih j h
      omega

/-- 1 when the phase at an index is released, else 0. -/
def relFlag : Option Phase → Nat
  | some .released => 1
  | _ => 0

lemma admStep_semInv (N : Nat) (s s2 : AdmState) (l : AdmLabel)
    (h : admStep s l = some s2) (hinv : s.sem + outstanding s = N) :
    s2.sem + outstanding s2 = N := by
  cases l with
  | tryAdmit i =>
    unfold admStep at h
    simp only [] at h
    cases hg : s.reqs.get? i with
    | none => rw [hg] at h; exact Option.noConfusion h
    | some p =>
      rw [hg] at h
      cases p
      case idle =>
        simp only [] at h
        by_cases hs : s.sem = 0
        · rw [if_pos hs] at h
          injection h with h
          subst h
          have hc := countP_set_eq s.reqs i .idle .rejected Phase.holdsSlot hg
          simp [Phase.holdsSlot] at hc
          unfold outstanding at *
          simp only [] at hc ⊢
          omega
        · rw [if_neg hs] at h
          injection h with h
          subst h
          have hc := countP_set_eq s.reqs i .idle .admitted Phase.holdsSlot hg
          simp [Phase.holdsSlot] at hc
          unfold outstanding at *
          simp only [] at hc ⊢
          omega
      all_goals exact Option.noConfusion h
  | finishBuffered i =>
    unfold admStep at h
    simp only [] at h
    cases hg : s.reqs.get? i with
    | none => rw [hg] at h; exact Option.noConfusion h
    | some p =>
      rw [hg] at h
      cases p
      case admitted =>
        simp only [] at h
        injection h with h
        subst h
        have hc := countP_set_eq s.reqs i .admitted .released Phase.holdsSlot hg
        simp [Phase.holdsSlot] at hc
        unfold outstanding at *
        simp only [] at hc ⊢
        omega
      all_goals exact Option.noConfusion h
  | startStream i n =>
    unfold admStep at h
    simp only [] at h
    cases hg : s.reqs.get? i with
    | none => rw [hg] at h; exact Option.noConfusion h
    | some p =>
      rw [hg] at h
      cases p
      case admitted =>
        simp only [] at h
        injection h with h
        subst h
        have hc := countP_set_eq s.reqs i .admitted (.streaming n) Phase.holdsSlot hg
        simp [Phase.holdsSlot] at hc
        unfold outstanding at *
        simp only [] at hc ⊢
        omega
      all_goals exact Option.noConfusion h
  | chunk i =>
    unfold admStep at h
    simp only [] at h
    cases hg : s.reqs.get? i with
    | none => rw [hg] at h; exact Option.noConfusion h
    | some p =>
      rw [hg] at h
      cases p
      case streaming m =>
        cases m with
        | zero => exact Option.noConfusion h
        | succ k =>
          simp only [] at h
          injection h with h
          subst h
          have hc := countP_set_eq s.reqs i (.streaming (k + 1)) (.streaming k)
            Phase.holdsSlot hg
          simp [Phase.holdsSlot] at hc
          unfold outstanding at *
          simp only [] at hc ⊢
          omega
      all_goals exact Option.noConfusion h
  | finalize i =>
    unfold admStep at h
    simp only [] at h
    cases hg : s.reqs.get? i with
    | none => rw [hg] at h; exact Option.noConfusion h
    | some p =>
      rw [hg] at h
      cases p
      case streaming m =>
        simp only [] at h
        injection h with h
        subst h
        have hc := countP_set_eq s.reqs i (.streaming m) .released Phase.holdsSlot hg
        simp [Phase.holdsSlot] at hc
        unfold outstanding at *
        simp only [] at hc ⊢
        omega
      all_goals exact Option.noConfusion h

lemma get?_some_lt {l : List Phase} {i : Nat} {p : Phase} (h : l.get? i = some p) :
    i < l.length := by
  by_contra hge
  rw [List.get?_eq_none.mpr (Nat.le_of_not_lt hge)] at h
  exact Option.noConfusion h

lemma relFlag_not_released (p : Phase) (h : p ≠ .released) : relFlag (some p) = 0 := by
  cases p
  · rfl
  · rfl
  · rfl
  · rfl
  · exact absurd rfl h

lemma relCount_nonrel (l : List Phase) (j : Nat) (pOld pNew : Phase) (i : Nat)
    (hg : l.get? j = some pOld) (hOld : pOld ≠ .released) (hNew : pNew ≠ .released) :
    relFlag ((l.set j pNew).get? i) = relFlag (l.get? i) := by
  by_cases hij : j = i
  · subst hij
    rw [List.get?_set_eq_of_lt _ (get?_some_lt hg), hg,
      relFlag_not_released _ hOld, relFlag_not_released _ hNew]
  · rw [List.get?_set_ne _ _ hij]

lemma relCount_rel (l : List Phase) (j : Nat) (pOld : Phase) (i : Nat)
    (hg : l.get? j = some pOld) (hOld : pOld ≠ .released) :
    relFlag ((l.set j .released).get? i) = relFlag (l.get? i) + (if j = i then 1 else 0) := by
  by_cases hij : j = i
  · subst hij
    rw [List.get?_set_eq_of_lt _ (get?_some_lt hg), hg,
      relFlag_not_released _ hOld, if_pos rfl]
    rfl
  · rw [List.get?_set_ne _ _ hij, if_neg hij]
    omega

lemma admStep_relCount (s s2 : AdmState) (l : AdmLabel)
    (h : admStep s l = some s2) (i : Nat) :
    relFlag (s2.reqs.get? i) =
      relFlag (s.reqs.get? i) + (if releasesFor i l then 1 else 0) := by
  cases l with
  | tryAdmit j =>
    unfold admStep at h
    simp only [] at h
    cases hg : s.reqs.get? j with
    | none => rw [hg] at h; exact Option.noConfusion h
    | some p =>
      rw [hg] at h
      cases p
      case idle =>
        simp only [] at h
        simp only [releasesFor, if_false, ite_false, Nat.add_zero]
        by_cases hs : s.sem = 0
        · rw [if_pos hs] at h
          injection h with h
          subst h
          exact relCount_nonrel s.reqs j .idle .rejected i hg (by simp) (by simp)
        · rw [if_neg hs] at h
          injection h with h
          subst h
          exact relCount_nonrel s.reqs j .idle .admitted i hg (by simp) (by simp)
      all_goals exact Option.noConfusion h
  | finishBuffered j =>
    unfold admStep at h
    simp only [] at h
    cases hg : s.reqs.get? j with
    | none => rw [hg] at h; exact Option.noConfusion h
    | some p =>
      rw [hg] at h
      cases p
      case admitted =>
        simp only [] at h
        injection h with h
        subst h
        have := relCount_rel s.reqs j .admitted i hg (by simp)
        simp only [releasesFor]
        by_cases hji : j = i
        · simp only [hji, if_pos rfl] at this ⊢
          simpa using this
        · simp only [if_neg hji] at this
          simp only [this, hji]
          simp
      all_goals exact Option.noConfusion h
  | startStream j n =>
    unfold admStep at h
    simp only [] at h
    cases hg : s.reqs.get? j with
    | none => rw [hg] at h; exact Option.noConfusion h
    | some p =>
      rw [hg] at h
      cases p
      case admitted =>
        simp only [] at h
        injection h with h
        subst h
        simp only [releasesFor, if_false, ite_false, Nat.add_zero]
        exact relCount_nonrel s.reqs j .admitted (.streaming n) i hg (by simp) (by simp)
      all_goals exact Option.noConfusion h
  | chunk j =>
    unfold admStep at h
    simp only [] at h
    cases hg : s.reqs.get? j with
    | none => rw [hg] at h; exact Option.noConfusion h
    | some p =>
      rw [hg] at h
      cases p
      case streaming m =>
        cases m with
        | zero => exact Option.noConfusion h
        | succ k =>
          simp only [] at h
          injection h with h
          subst h
          simp only [releasesFor, if_false, ite_false, Nat.add_zero]
          exact relCount_nonrel s.reqs j (.streaming (k + 1)) (.streaming k) i hg
            (by simp) (by simp)
      all_goals exact Option.noConfusion h
  | finalize j =>
    unfold admStep at h
    simp only [] at h
    cases hg : s.reqs.get? j with
    | none => rw [hg] at h; exact Option.noConfusion h
    | some p =>
      rw [hg] at h
      cases p
      case streaming m =>
        simp only [] at h
        injection h with h
        subst h
        have := relCount_rel s.reqs j (.streaming m) i hg (by simp)
        simp only [releasesFor]
        by_cases hji : j = i
        · simp only [hji, if_pos rfl] at this ⊢
          simpa using this
        · simp only [if_neg hji] at this
          simp only [this, hji]
          simp
      all_goals exact Option.noConfusion h

lemma admRun_semInv (N : Nat) (labels : List AdmLabel) :
    ∀ s0 s : AdmState, admRun s0 labels = some s → s0.sem + outstanding s0 = N →
      s.sem + outstanding s = N := by
  induction labels with
  | nil =>
    intro s0 s h hinv
    simp only [admRun, Option.some.injEq] at h
    subst h
    exact hinv
  | cons l ls ih =>
    intro s0 s h hinv
    simp only [admRun] at h
    cases hstep : admStep s0 l with
    | none => rw [hstep] at h; exact Option.noConfusion h
    | some s1 =>
      rw [hstep] at h
      exact ih s1 s h (admStep_semInv N s0 s1 l hstep hinv)

lemma admRun_relCount (labels : List AdmLabel) :
    ∀ s0 s : AdmState, admRun s0 labels = some s → ∀ i,
      relFlag (s.reqs.get? i) =
        relFlag (s0.reqs.get? i) + labels.countP (releasesFor i) := by
  induction labels with
  | nil =>
    intro s0 s h i
    simp only [admRun, Option.some.injEq] at h
    subst h
    simp
  | cons l ls ih =>
    intro s0 s h i
    simp only [admRun] at h
    cases hstep : admStep s0 l with
    | none => rw [hstep] at h; exact Option.noConfusion h
    | some s1 =>
      rw [hstep] at h
      have h1 := admStep_relCount s0 s1 l hstep i
      have h2 := ih s1 s h i
      rw [List.countP_cons]
      omega

lemma outstanding_init (concurrency n : Nat) : outstanding (admInit concurrency n) = 0 := by
  unfold outstanding admInit
  induction n with
  | zero => rfl
  | succ k ih => simp [List.replicate, List.countP_cons, ih, Phase.holdsSlot]

lemma relFlag_init (concurrency n i : Nat) :
    relFlag ((admInit concurrency n).reqs.get? i) = 0 := by
  unfold admInit
  cases hg : (List.replicate n Phase.idle).get? i with
  | none => rfl
  | some p =>
    have hp : p = Phase.idle := List.eq_of_mem_replicate (List.get?_mem hg)
    subst hp
    rfl

/-- C1: admission-slot accounting of GraValMiddleware.dispatch.  In
  every reachable state of the protocol (any interleaving of admitted
  requests, rejections, buffered completions, stream chunks and
  stream finalizations, from any initial state with the configured
  concurrency free slots), the number of outstanding acquired slots
  never exceeds the configured concurrency, the semaphore value plus
  the outstanding slots is exactly the concurrency, and every request
  is released exactly once - the releasing events (buffered-response
  finally block, or the wrapped iterator finalization that also fires
  on mid-stream failure) occur exactly once for a request that has
  reached the released phase and never otherwise; in particular a
  streaming request whose handler has returned (startStream) but whose
  iterator has not finalized has released nothing. -/
theorem grav_admission_control (concurrency n : Nat) (labels : List AdmLabel)
    (s : AdmState) (h : admRun (admInit concurrency n) labels = some s) :
    outstanding s ≤ concurrency ∧
    s.sem + outstanding s = concurrency ∧
    ∀ i, labels.countP (releasesFor i) =
      (if s.reqs.get? i = some Phase.released then 1 else 0) := by
  have hsem := admRun_semInv concurrency labels (admInit concurrency n) s h
    (by rw [outstanding_init]; rfl)
  refine ⟨by omega, hsem, ?_⟩
  intro i
  have hrel := admRun_relCount labels (admInit concurrency n) s h i
  rw [relFlag_init] at hrel
  cases hg : s.reqs.get? i with
  | none =>
    rw [hg] at hrel
    simp only [relFlag] at hrel
    simp only [if_neg (by simp : ¬ (none : Option Phase) = some Phase.released)]
    omega
  | some p =>
    rw [hg] at hrel
    cases p
    case released =>
      simp only [relFlag] at hrel
      rw [if_pos rfl]
      omega
    all_goals
      simp only [relFlag] at hrel
      rw [if_neg (by simp)]
      omega

/-- Scenario trace: concurrency 1, request 0 admitted and streaming
  with 2 chunks, request 1 rejected 429 while the stream is open,
  then the stream drains and finalizes. -/
def demoLabels : List AdmLabel :=
  [.tryAdmit 0, .startStream 0 2, .tryAdmit 1, .chunk 0, .chunk 0, .finalize 0]

/-- Stream that fails after the handler returned, before its chunks
  were exhausted: finalization still runs. -/
def demoFailLabels : List AdmLabel := [.tryAdmit 0, .startStream 0 5, .finalize 0]

/-- Witness for C1 on the two concrete traces. -/
theorem grav_admission_control_witness :
    admRun (admInit 1 2) demoLabels = some ⟨1, [.released, .rejected]⟩ ∧
    outstanding ⟨1, [.released, .rejected]⟩ ≤ 1 ∧
    demoLabels.countP (releasesFor 0) =
      (if ([Phase.released, Phase.rejected] : List Phase).get? 0 = some .released
       then 1 else 0) ∧
    admRun (admInit 1 1) demoFailLabels = some ⟨1, [.released]⟩ ∧
    demoFailLabels.countP (releasesFor 0) = 1 := by
  refine ⟨by decide,
    (grav_admission_control 1 2 demoLabels ⟨1, [.released, .rejected]⟩ (by decide)).1,
    (grav_admission_control 1 2 demoLabels ⟨1, [.released, .rejected]⟩ (by decide)).2.2 0,
    by decide, ?_⟩
  have h := (grav_admission_control 1 1 demoFailLabels ⟨1, [.released]⟩ (by decide)).2.2 0
  simpa using h
